import Mathlib

/-!
Verification development for the instagrouper repository (src/src/lib.rs and
src/src/main.rs).  The data model, the grouping engine, the merge decision
logic, the chunked assembly indexing, the output naming scheme and the CLI
argument loop are shallowly embedded below, translated from the Rust source.
Durations are modelled as natural numbers of nanoseconds, exactly the
resolution of std::time::Duration.
-/

namespace Instagrouper

/-- MediaType from src/src/lib.rs (pub enum MediaType). -/
inductive MediaType where
  | Audio
  | Video
  | Image
deriving DecidableEq

/-- Resolution from src/src/lib.rs (pub struct Resolution with u16 width and
height, fields in this declaration order). -/
structure Resolution where
  width : Nat
  height : Nat
deriving DecidableEq

/-- Pixel area of a resolution (width * height, computed in usize in the
source; u16 * u16 cannot overflow usize, so Nat multiplication is exact). -/
def Resolution.area (r : Resolution) : Nat := r.width * r.height

/-- The hand-written PartialOrd impl for Resolution in src/src/lib.rs: it
compares pixel areas.  partial_cmp on Nat never returns None, so the impl is
a total comparison by area. -/
def Resolution.cmpArea (a b : Resolution) : Ordering := compare a.area b.area

/-- The derived Ord impl for Resolution (derive(Ord) on the struct in
src/src/lib.rs): lexicographic comparison of the fields in declaration
order, width first, then height. -/
def Resolution.cmpDerived (a b : Resolution) : Ordering :=
  (compare a.width b.width).then (compare a.height b.height)

/-- The Ord instance on Option Resolution used by max_by_key in merge:
None sorts below Some, and Some values compare with Resolution's derived
Ord (the lexicographic one, not the area-based PartialOrd). -/
def cmpOptRes : Option Resolution → Option Resolution → Ordering
  | none, none => Ordering.eq
  | none, some _ => Ordering.lt
  | some _, none => Ordering.gt
  | some a, some b => Resolution.cmpDerived a b

/-- MediaInfo from src/src/lib.rs.  duration is in nanoseconds
(std::time::Duration); timestamp is an abstract instant (jiff::Timestamp). -/
structure MediaInfo where
  stream_count : Nat
  media : MediaType
  path : String
  codec : String
  size : Nat
  duration : Nat
  timestamp : Int
  resolution : Option Resolution
  bit_rate : Option Nat
deriving DecidableEq

instance : Inhabited MediaInfo :=
  ⟨{ stream_count := 0, media := MediaType.Audio, path := "", codec := "",
     size := 0, duration := 0, timestamp := 0, resolution := none,
     bit_rate := none }⟩

/-- MediaInfo::is_audio. -/
def MediaInfo.is_audio (m : MediaInfo) : Bool := decide (m.media = MediaType.Audio)

/-- MediaInfo::is_video. -/
def MediaInfo.is_video (m : MediaInfo) : Bool := decide (m.media = MediaType.Video)

/-- MediaInfo::is_image. -/
def MediaInfo.is_image (m : MediaInfo) : Bool := decide (m.media = MediaType.Image)

/-- Duration::from_secs_f64(0.7) in nanoseconds: the f64 closest to 0.7 is
0.70000000000000004440892098500626, and from_secs_f64 rounds to the nearest
nanosecond, giving exactly 700000000 ns. -/
def maxDelta : Nat := 700000000

/-- Duration::abs_diff on nanosecond counts. -/
def absDiff (a b : Nat) : Nat := if a ≤ b then b - a else a - b

/-- One step of the stable descending-duration sort: insert mi in front of
the first element whose duration does not exceed mi's.  Together with the
foldr below this realizes sort_by_key(Reverse(duration)) from group in
src/src/lib.rs: a stable sort by decreasing duration. -/
def insertByDurationDesc (mi : MediaInfo) : List MediaInfo → List MediaInfo
  | [] => [mi]
  | x :: xs =>
    if x.duration ≤ mi.duration then mi :: x :: xs
    else x :: insertByDurationDesc mi xs

/-- media_info.sort_by_key(Reverse(mi.duration)): stable sort by
non-increasing duration. -/
def sortDesc (l : List MediaInfo) : List MediaInfo :=
  List.foldr insertByDurationDesc [] l

/-- The eligibility rejection test from the grouping loop in src/src/lib.rs
(the already_has_resolution binding): an Audio descriptor is rejected from a
group that has an Audio member, an Image from one that has an Image member,
and a Video from a group any of whose members has the same resolution. -/
def alreadyHasResolution (mi : MediaInfo) (g : List MediaInfo) : Bool :=
  g.any fun other =>
    match mi.media with
    | MediaType.Audio => other.is_audio
    | MediaType.Image => other.is_image
    | MediaType.Video => decide (other.resolution = mi.resolution)

/-- The let-binding delta of the loop body: |mi.duration − group[0].duration|,
the anchor being the group's first member (group[0] in the source). -/
def deltaTo (mi : MediaInfo) (g : List MediaInfo) : Nat :=
  absDiff mi.duration ((g.headD default).duration)

/-- The body of the candidate-scan loop in group (src/src/lib.rs) for one
existing group at index idx, updating the running best_match accumulator.
For an Image descriptor the first group holding a member of equal resolution
is taken with delta Default::default() = 0; otherwise the group is a
candidate when delta = |duration - group[0].duration| (deltaTo) is within
maxDelta, and it replaces the accumulator only on strictly smaller delta. -/
def considerGroup (mi : MediaInfo) (idx : Nat) (g : List MediaInfo)
    (best : Option (Nat × Nat)) : Option (Nat × Nat) :=
  if alreadyHasResolution mi g then best
  else if mi.is_image then
    if best.isNone && (g.any fun other => decide (other.resolution = mi.resolution)) then
      some (idx, 0)
    else best
  else
    if deltaTo mi g ≤ maxDelta then
      match best with
      | none => some (idx, deltaTo mi g)
      | some (_, bestDelta) =>
        if deltaTo mi g < bestDelta then some (idx, deltaTo mi g) else best
    else best

/-- The candidate scan over all existing groups, carrying the running index
(the enumerate() in the source). -/
def findBest (mi : MediaInfo) : Nat → List (List MediaInfo) →
    Option (Nat × Nat) → Option (Nat × Nat)
  | _, [], best => best
  | idx, g :: rest, best => findBest mi (idx + 1) rest (considerGroup mi idx g best)

/-- best_match after the whole scan of existing groups for descriptor mi. -/
def bestMatch (gs : List (List MediaInfo)) (mi : MediaInfo) : Option (Nat × Nat) :=
  findBest mi 0 gs none

/-- groups[idx].push(mi): append mi at the end of the group at index idx. -/
def pushAt : List (List MediaInfo) → Nat → MediaInfo → List (List MediaInfo)
  | [], _, _ => []
  | g :: rest, 0, mi => (g ++ [mi]) :: rest
  | g :: rest, n + 1, mi => g :: pushAt rest n mi

/-- Placement of one descriptor: push into the best-matching group, or open
a new singleton group when no candidate survived. -/
def placeOne (gs : List (List MediaInfo)) (mi : MediaInfo) : List (List MediaInfo) :=
  match bestMatch gs mi with
  | some (idx, _) => pushAt gs idx mi
  | none => gs ++ [[mi]]

/-- The grouping engine from src/src/lib.rs (pub fn group), starting from
the probed descriptors: sort by non-increasing duration, then place each
descriptor in turn. -/
def group (l : List MediaInfo) : List (List MediaInfo) :=
  List.foldl placeOne [] (sortDesc l)

/-- Prop form of the non-image candidate condition: the group is eligible
and its anchor duration is within maxDelta of mi's. -/
def okCand (mi : MediaInfo) (g : List MediaInfo) : Prop :=
  alreadyHasResolution mi g = false ∧ deltaTo mi g ≤ maxDelta

/-- Prop form of the image candidate condition: the group is eligible and
has some member with mi's resolution. -/
def imgCand (mi : MediaInfo) (g : List MediaInfo) : Prop :=
  alreadyHasResolution mi g = false ∧
    (g.any fun other => decide (other.resolution = mi.resolution)) = true

instance (mi : MediaInfo) (g : List MediaInfo) : Decidable (okCand mi g) := by
  unfold okCand; infer_instance

instance (mi : MediaInfo) (g : List MediaInfo) : Decidable (imgCand mi g) := by
  unfold imgCand; infer_instance

/-- Per-group compatibility invariant of the spec: at most one Audio member,
at most one Image member, and no two Video members with the same
resolution. -/
def groupOkB (g : List MediaInfo) : Bool :=
  decide ((g.filter fun m => m.is_audio).length ≤ 1) &&
  decide ((g.filter fun m => m.is_image).length ≤ 1) &&
  decide (((g.filter fun m => m.is_video).map fun m => m.resolution).Nodup)

/-- A group respects the threshold property: it is non-empty and every
non-image member after the anchor (the first member) has a duration within
maxDelta of the anchor's. -/
def threshOk (g : List MediaInfo) : Prop :=
  ∃ a t, g = a :: t ∧
    ∀ m ∈ t, m.is_image = false → absDiff m.duration a.duration ≤ maxDelta

/-- group.iter().filter(is_audio).next() from merge in src/src/lib.rs: the
first Audio member. -/
def mergeAudio (g : List MediaInfo) : Option MediaInfo :=
  g.find? fun m => m.is_audio

/-- One fold step of Iterator::max_by_key over the resolution key with the
Ord instance of Option Resolution: keep the accumulator only when the new
element's key is strictly smaller, so on ties the later element wins,
exactly as in the Rust standard library. -/
def maxByResStep (acc : Option MediaInfo) (x : MediaInfo) : Option MediaInfo :=
  match acc with
  | none => some x
  | some a => if cmpOptRes x.resolution a.resolution = Ordering.lt then some a else some x

/-- Iterator::max_by_key over the resolution key: none on an empty list. -/
def maxByResolution (l : List MediaInfo) : Option MediaInfo :=
  List.foldl maxByResStep none l

/-- group.iter().filter(is_video).max_by_key(resolution) from merge. -/
def mergeVideo (g : List MediaInfo) : Option MediaInfo :=
  maxByResolution (g.filter fun m => m.is_video)

/-- The externally visible effect of merge, abstracting the ffmpeg call:
either a mux of an audio path and a video path, or a verbatim copy of one
source file. -/
inductive MergeAction where
  | mux : String → String → MergeAction
  | copyFirst : String → MergeAction
deriving DecidableEq

/-- The decision logic of merge in src/src/lib.rs: with both an audio and a
video member it muxes them and reports "audio+video"; otherwise it copies
group[0].path verbatim and reports "audio" when an audio member exists and
"video" otherwise. -/
def mergeResult (g : List MediaInfo) : MergeAction × String :=
  match mergeAudio g, mergeVideo g with
  | some a, some v => (MergeAction.mux a.path v.path, "audio+video")
  | oa, _ =>
    (MergeAction.copyFirst ((g.headD default).path),
     if oa.isSome then "audio" else "video")

/-- The kind string merge returns. -/
def mergeKind (g : List MediaInfo) : String := (mergeResult g).2

/-- The kind recorded by the orchestrator in src/src/main.rs: a group that
is a single Image descriptor short-circuits with kind "image" and never
calls merge; every other group gets merge's kind. -/
def attachmentKind (g : List MediaInfo) : String :=
  if g.length = 1 && (g.headD default).is_image then "image" else mergeKind g

/-- usize::div_ceil from main.rs: chunk_size = groups.len().div_ceil(num_cpus). -/
def divCeil (a b : Nat) : Nat := (a + b - 1) / b

/-- slice::chunks(k): contiguous chunks of size k, the last one possibly
shorter.  A fuel argument (an upper bound on the list length) keeps the
recursion structural; with positive k it never runs out. -/
def chunksOfAux {α : Type} : Nat → Nat → List α → List (List α)
  | 0, _, _ => []
  | _, _, [] => []
  | fuel + 1, k, x :: xs => (x :: xs).take k :: chunksOfAux fuel k ((x :: xs).drop k)

/-- groups.chunks(chunk_size) from main.rs. -/
def chunksOf {α : Type} (k : Nat) (l : List α) : List (List α) :=
  chunksOfAux l.length k l

/-- Map with an explicit running index, the in-order enumeration a single
worker performs over its chunk (in_chunk_idx) and also the sequential
reference semantics over all groups. -/
def mapWithIndexFrom {α β : Type} (f : Nat → α → β) : Nat → List α → List β
  | _, [] => []
  | i, x :: xs => f i x :: mapWithIndexFrom f (i + 1) xs

/-- One worker per chunk, chunk ci computing global indices ci * k + ii, and
the per-chunk result lists concatenated in chunk order — the flat_map over
joined handles in main.rs. -/
def chunkedGo {α β : Type} (f : Nat → α → β) (k : Nat) :
    Nat → List (List α) → List β
  | _, [] => []
  | ci, c :: rest =>
    mapWithIndexFrom (fun ii g => f (ci * k + ii) g) 0 c ++ chunkedGo f k (ci + 1) rest

/-- The whole chunked parallel assembly of main.rs, with the per-group work
abstracted as f applied to the global index and the group. -/
def chunkedMap {α β : Type} (f : Nat → α → β) (k : Nat) (gs : List α) : List β :=
  chunkedGo f k 0 (chunksOf k gs)

/-- The sequential reference: assemble the groups in their original order. -/
def assembleSeq {α β : Type} (f : Nat → α → β) (gs : List α) : List β :=
  mapWithIndexFrom f 0 gs

/-- name0.match_indices('_') from main.rs, restricted to the indices:
the positions of every underscore, in increasing order. -/
def matchIndicesUnderscore : List Char → Nat → List Nat
  | [], _ => []
  | c :: rest, i =>
    if c = '_' then i :: matchIndicesUnderscore rest (i + 1)
    else matchIndicesUnderscore rest (i + 1)

/-- The stub derivation from main.rs: the slice of the name up to (not
including) the second underscore when one exists
(match_indices('_').nth(1)), and none otherwise (the caller then generates
a fresh uuid stub). -/
def stubOf (cs : List Char) : Option (List Char) :=
  ((matchIndicesUnderscore cs 0).get? 1).map fun i => cs.take i

/-- Number of underscore characters in a name fragment. -/
def countU : List Char → Nat
  | [] => 0
  | c :: rest => (if c = '_' then 1 else 0) + countU rest

/-- The decimal digit characters of Display for unsigned integers. -/
def digitChar (d : Nat) : Char := Char.ofNat (48 + d)

/-- Decimal digits of n, most significant first, as Display renders it. -/
def natDigits (n : Nat) : List Char :=
  if h : n < 10 then [digitChar n]
  else natDigits (n / 10) ++ [digitChar (n % 10)]
decreasing_by
  exact Nat.div_lt_self (by omega) (by omega)

/-- The width-3 zero fill of the format spec 0>3 applied to the decimal
rendering of n. -/
def padIndex (n : Nat) : List Char :=
  List.replicate (3 - (natDigits n).length) '0' ++ natDigits n

/-- An output file name from main.rs, as a character list:
stub ++ "_" ++ zero-padded index ++ extension. -/
def outName (stub : List Char) (n : Nat) (ext : List Char) : List Char :=
  stub ++ '_' :: (padIndex n ++ ext)

/-- Read a digit string back as a number; inverse of natDigits, used to show
that index-qualified names are injective in the index. -/
def parseDec (cs : List Char) : Nat :=
  List.foldl (fun acc c => acc * 10 + (c.toNat - 48)) 0 cs

/-- Outcome of the CLI argument loop in main.rs, naming each early exit. -/
inductive CliOutcome where
  | helpExit
  | badFlag : String → CliOutcome
  | missingOutDirValue
  | outDirNotFound
  | pathNotFound : String → CliOutcome
  | noInputs
  | ok : List String → String → CliOutcome
deriving DecidableEq

/-- opt.starts_with("-"): true when the first byte is a dash. -/
def startsWithDash (s : String) : Bool :=
  match s.toList with
  | '-' :: _ => true
  | _ => false

/-- The argument loop of main in src/src/main.rs, with the filesystem
existence test abstracted as the oracle ex.  Flags are handled first; a
positional argument is considered only when last_chunk::<4> on its bytes
succeeds, i.e. when it is at least 4 bytes long (the disabled extension
test true || ext == ".mp4" accepts everything of that length); an existing
path is pushed, a missing one exits; after the loop, an empty path list
prints usage and exits 1. -/
def parseArgs (ex : String → Bool) : List String → List String → String → CliOutcome
  | [], paths, outDir =>
    if paths.isEmpty then CliOutcome.noInputs else CliOutcome.ok paths outDir
  | a :: rest, paths, outDir =>
    if a = "-o" ∨ a = "--outdir" ∨ a = "--out-dir" then
      match rest with
      | [] => CliOutcome.missingOutDirValue
      | v :: rest2 => if ex v then parseArgs ex rest2 paths v else CliOutcome.outDirNotFound
    else if a = "-h" ∨ a = "--help" then CliOutcome.helpExit
    else if startsWithDash a then CliOutcome.badFlag a
    else if 4 ≤ a.utf8ByteSize then
      if ex a then parseArgs ex rest (paths ++ [a]) outDir
      else CliOutcome.pathNotFound a
    else parseArgs ex rest paths outDir

/-- A filesystem oracle on which no path exists. -/
def exNone : String → Bool := fun _ => false

/-- Concrete fixture: an audio descriptor of 10.1 s. -/
def aud101 : MediaInfo :=
  { stream_count := 1, media := MediaType.Audio, path := "a_track_1.mp4",
    codec := "aac", size := 1000, duration := 10100000000, timestamp := 5,
    resolution := none, bit_rate := some 128000 }

/-- Concrete fixture: a 1080p video of 10.0 s. -/
def vid1080s10 : MediaInfo :=
  { stream_count := 1, media := MediaType.Video, path := "v_track_big.mp4",
    codec := "h264", size := 5000, duration := 10000000000, timestamp := 7,
    resolution := some { width := 1920, height := 1080 }, bit_rate := some 900000 }

/-- Concrete fixture: a 720x400 video of 10.0 s. -/
def v720x400 : MediaInfo :=
  { stream_count := 1, media := MediaType.Video, path := "v_wide.mp4",
    codec := "h264", size := 2000, duration := 10000000000, timestamp := 7,
    resolution := some { width := 720, height := 400 }, bit_rate := some 400000 }

/-- Concrete fixture: a 1200x90 video of 10.0 s, smaller pixel area than
v720x400 but larger width. -/
def v1200x90 : MediaInfo :=
  { stream_count := 1, media := MediaType.Video, path := "v_banner.mp4",
    codec := "h264", size := 1500, duration := 10000000000, timestamp := 7,
    resolution := some { width := 1200, height := 90 }, bit_rate := some 300000 }

/-- Concrete fixture: a 640x480 video of 10.0 s. -/
def vid640s10 : MediaInfo :=
  { stream_count := 1, media := MediaType.Video, path := "v_small.mp4",
    codec := "h264", size := 900, duration := 10000000000, timestamp := 9,
    resolution := some { width := 640, height := 480 }, bit_rate := none }

/-- Concrete fixture: a 640x480 image whose container reports 10.0 s. -/
def img640s10 : MediaInfo :=
  { stream_count := 1, media := MediaType.Image, path := "i_thumb_a.jpg",
    codec := "mjpeg", size := 90, duration := 10000000000, timestamp := 9,
    resolution := some { width := 640, height := 480 }, bit_rate := none }

/-- Concrete fixture: a 640x480 video of 3.0 s (Scenario D). -/
def vid640s3 : MediaInfo :=
  { stream_count := 1, media := MediaType.Video, path := "v_clip.mp4",
    codec := "h264", size := 700, duration := 3000000000, timestamp := 2,
    resolution := some { width := 640, height := 480 }, bit_rate := none }

/-- Concrete fixture: a 640x480 image of duration 0 (Scenario D). -/
def img640s0 : MediaInfo :=
  { stream_count := 1, media := MediaType.Image, path := "i_still.jpg",
    codec := "png", size := 60, duration := 0, timestamp := 3,
    resolution := some { width := 640, height := 480 }, bit_rate := none }

/-- Concrete per-group worker body used to instantiate the chunked assembly
refinement: tag each group with its global index. -/
def tagIdx (n : Nat) (g : List MediaInfo) : Nat × List MediaInfo := (n, g)

/- ### Shape of the candidate scan -/

theorem considerGroup_shape (mi : MediaInfo) (idx : Nat) (g : List MediaInfo)
    (best : Option (Nat × Nat)) :
    considerGroup mi idx g best = best ∨
      ∃ d, considerGroup mi idx g best = some (idx, d) ∧
        alreadyHasResolution mi g = false := by
  unfold considerGroup
  split
  next => exact Or.inl rfl
  next h1 =>
    split
    next =>
      split
      next => exact Or.inr ⟨0, rfl, by simpa using h1⟩
      next => exact Or.inl rfl
    next =>
      split
      next =>
        split
        next => exact Or.inr ⟨_, rfl, by simpa using h1⟩
        next i0 d0 =>
          split
          next => exact Or.inr ⟨_, rfl, by simpa using h1⟩
          next => exact Or.inl rfl
      next => exact Or.inl rfl

theorem findBest_shape (mi : MediaInfo) (rest : List (List MediaInfo)) :
    ∀ (idx : Nat) (best : Option (Nat × Nat)),
      findBest mi idx rest best = best ∨
        ∃ j d g, findBest mi idx rest best = some (j, d) ∧ idx ≤ j ∧
          rest.get? (j - idx) = some g ∧ alreadyHasResolution mi g = false := by
  induction rest with
  | nil => intro idx best; exact Or.inl rfl
  | cons g rest ih =>
    intro idx best
    have hstep : findBest mi idx (g :: rest) best =
        findBest mi (idx + 1) rest (considerGroup mi idx g best) := rfl
    rw [hstep]
    rcases ih (idx + 1) (considerGroup mi idx g best) with h | ⟨j, d, g', hfb, hle, hget, helig⟩
    · rw [h]
      rcases considerGroup_shape mi idx g best with h2 | ⟨d, h2, helig⟩
      · exact Or.inl h2
      · exact Or.inr ⟨idx, d, g, h2, Nat.le_refl idx, by simp, helig⟩
    · refine Or.inr ⟨j, d, g', hfb, by omega, ?_, helig⟩
      have hj : j - idx = (j - (idx + 1)) + 1 := by omega
      rw [hj]
      simpa using hget

theorem bestMatch_elig (gs : List (List MediaInfo)) (mi : MediaInfo) (j d : Nat)
    (h : bestMatch gs mi = some (j, d)) :
    j < gs.length ∧ ∃ g, gs.get? j = some g ∧ alreadyHasResolution mi g = false := by
  rcases findBest_shape mi gs 0 none with h0 | ⟨j', d', g, hfb, _, hget, helig⟩
  · rw [bestMatch] at h; rw [h0] at h; cases h
  · rw [bestMatch] at h; rw [hfb] at h
    obtain ⟨hj, hd⟩ : j' = j ∧ d' = d := by
      have h2 := h; simp only [Option.some.injEq, Prod.mk.injEq] at h2; exact h2
    rw [hj] at hget
    have hget' : gs.get? j = some g := by simpa using hget
    exact ⟨(List.get?_eq_some.mp hget').1, g, hget', helig⟩

/- ### pushAt: the groups[idx].push(mi) update -/

theorem pushAt_get? : ∀ (gs : List (List MediaInfo)) (j : Nat) (mi : MediaInfo) (k : Nat),
    j < gs.length →
    (pushAt gs j mi).get? k =
      if k = j then (gs.get? k).map (fun g => g ++ [mi]) else gs.get? k := by
  intro gs
  induction gs with
  | nil => intro j mi k h; simp at h
  | cons g rest ih =>
    intro j mi k h
    cases j with
    | zero =>
      cases k with
      | zero => simp [pushAt]
      | succ k => simp [pushAt]
    | succ j =>
      cases k with
      | zero => simp [pushAt]
      | succ k =>
        have hj : j < rest.length := by simpa using h
        have := ih j mi k hj
        simp only [pushAt, List.get?_cons_succ]
        rw [this]
        by_cases hkj : k = j
        · simp [hkj]
        · simp [hkj, fun hh => hkj (Nat.succ_injective hh)]

theorem pushAt_flatten_perm : ∀ (gs : List (List MediaInfo)) (j : Nat) (mi : MediaInfo),
    j < gs.length → List.Perm (pushAt gs j mi).flatten (mi :: gs.flatten) := by
  intro gs
  induction gs with
  | nil => intro j mi h; simp at h
  | cons g rest ih =>
    intro j mi h
    cases j with
    | zero =>
      simp only [pushAt, List.flatten_cons]
      have h1 : (g ++ [mi]) ++ rest.flatten = g ++ mi :: rest.flatten := by simp
      rw [h1]
      exact List.perm_middle
    | succ j =>
      simp only [pushAt, List.flatten_cons]
      have h2 := ih j mi (by simpa using h)
      exact List.Perm.trans (h2.append_left g) List.perm_middle

theorem pushAt_mem : ∀ (gs : List (List MediaInfo)) (j : Nat) (mi : MediaInfo)
    (x : List MediaInfo), x ∈ pushAt gs j mi →
      x ∈ gs ∨ ∃ g, gs.get? j = some g ∧ x = g ++ [mi] := by
  intro gs
  induction gs with
  | nil => intro j mi x hx; simp [pushAt] at hx
  | cons g rest ih =>
    intro j mi x hx
    cases j with
    | zero =>
      rcases List.mem_cons.mp hx with h1 | h1
      · exact Or.inr ⟨g, rfl, h1⟩
      · exact Or.inl (List.mem_cons_of_mem g h1)
    | succ j =>
      rcases List.mem_cons.mp hx with h1 | h1
      · exact Or.inl (h1 ▸ List.mem_cons_self g rest)
      · rcases ih j mi x h1 with h2 | ⟨g', hg', hx'⟩
        · exact Or.inl (List.mem_cons_of_mem g h2)
        · exact Or.inr ⟨g', by simpa using hg', hx'⟩

/- ### The stable descending sort -/

theorem insertByDurationDesc_perm (mi : MediaInfo) :
    ∀ l, List.Perm (insertByDurationDesc mi l) (mi :: l) := by
  intro l
  induction l with
  | nil => exact List.Perm.refl _
  | cons x xs ih =>
    by_cases h : x.duration ≤ mi.duration
    · simp [insertByDurationDesc, h]
    · simp only [insertByDurationDesc, h, if_false]
      exact List.Perm.trans (ih.cons x) (List.Perm.swap mi x xs)

theorem sortDesc_perm (l : List MediaInfo) : List.Perm (sortDesc l) l := by
  induction l with
  | nil => exact List.Perm.refl _
  | cons x xs ih =>
    have hstep : sortDesc (x :: xs) = insertByDurationDesc x (sortDesc xs) := rfl
    rw [hstep]
    exact List.Perm.trans (insertByDurationDesc_perm x (sortDesc xs)) (ih.cons x)

theorem insertByDurationDesc_sorted (mi : MediaInfo) :
    ∀ l, l.Pairwise (fun a b => b.duration ≤ a.duration) →
      (insertByDurationDesc mi l).Pairwise (fun a b => b.duration ≤ a.duration) := by
  intro l
  induction l with
  | nil => intro _; simp [insertByDurationDesc]
  | cons x xs ih =>
    intro h
    rw [List.pairwise_cons] at h
    obtain ⟨hx, hxs⟩ := h
    by_cases hle : x.duration ≤ mi.duration
    · simp only [insertByDurationDesc, hle, if_true]
      refine List.Pairwise.cons ?_ (List.Pairwise.cons hx hxs)
      intro y hy
      rcases List.mem_cons.mp hy with h1 | h1
      · exact h1 ▸ hle
      · exact Nat.le_trans (hx y h1) hle
    · simp only [insertByDurationDesc, hle, if_false]
      refine List.Pairwise.cons ?_ (ih hxs)
      intro y hy
      have hy' : y ∈ mi :: xs := ((insertByDurationDesc_perm mi xs).mem_iff).mp hy
      rcases List.mem_cons.mp hy' with h1 | h1
      · subst h1; omega
      · exact hx y h1

theorem sortDesc_sorted (l : List MediaInfo) :
    (sortDesc l).Pairwise (fun a b => b.duration ≤ a.duration) := by
  induction l with
  | nil => simp [sortDesc]
  | cons x xs ih =>
    have hstep : sortDesc (x :: xs) = insertByDurationDesc x (sortDesc xs) := rfl
    rw [hstep]
    exact insertByDurationDesc_sorted x (sortDesc xs) ih

/- ### Partition: placement preserves the multiset of descriptors -/

theorem placeOne_flatten_perm (gs : List (List MediaInfo)) (mi : MediaInfo) :
    List.Perm (placeOne gs mi).flatten (mi :: gs.flatten) := by
  unfold placeOne
  cases h : bestMatch gs mi with
  | none =>
    have h1 : ((gs ++ [[mi]]).flatten) = gs.flatten ++ [mi] := by simp
    rw [h1]
    have h2 : List.Perm (gs.flatten ++ [mi]) ([mi] ++ gs.flatten) := List.perm_append_comm
    simpa using h2
  | some p =>
    obtain ⟨j, d⟩ := p
    exact pushAt_flatten_perm gs j mi (bestMatch_elig gs mi j d h).1

theorem foldl_placeOne_flatten_perm :
    ∀ (l : List MediaInfo) (gs : List (List MediaInfo)),
      List.Perm (List.foldl placeOne gs l).flatten (l ++ gs.flatten) := by
  intro l
  induction l with
  | nil => intro gs; exact List.Perm.refl _
  | cons mi l ih =>
    intro gs
    have h1 := ih (placeOne gs mi)
    refine List.Perm.trans h1 ?_
    have h2 := (placeOne_flatten_perm gs mi).append_left l
    refine List.Perm.trans h2 ?_
    exact List.perm_middle

theorem placeOne_nonempty (gs : List (List MediaInfo)) (mi : MediaInfo)
    (h : ∀ g ∈ gs, g ≠ []) : ∀ g ∈ placeOne gs mi, g ≠ [] := by
  intro x hx
  unfold placeOne at hx
  cases hbm : bestMatch gs mi with
  | none =>
    rw [hbm] at hx
    rcases List.mem_append.mp hx with h1 | h1
    · exact h x h1
    · simp at h1; subst h1; simp
  | some p =>
    obtain ⟨j, d⟩ := p
    rw [hbm] at hx
    rcases pushAt_mem gs j mi x hx with h1 | ⟨g, _, rfl⟩
    · exact h x h1
    · simp

theorem foldl_placeOne_nonempty :
    ∀ (l : List MediaInfo) (gs : List (List MediaInfo)),
      (∀ g ∈ gs, g ≠ []) → ∀ g ∈ List.foldl placeOne gs l, g ≠ [] := by
  intro l
  induction l with
  | nil => intro gs h; exact h
  | cons mi l ih =>
    intro gs h
    exact ih (placeOne gs mi) (placeOne_nonempty gs mi h)

/- ### Exact behaviour of one loop step -/

theorem considerGroup_cases_nonimage (mi : MediaInfo) (idx : Nat) (g : List MediaInfo)
    (best : Option (Nat × Nat)) (him : mi.is_image = false) :
    (considerGroup mi idx g best = best ∧
      (¬ okCand mi g ∨ ∃ i0 d0, best = some (i0, d0) ∧ d0 ≤ deltaTo mi g)) ∨
    (considerGroup mi idx g best = some (idx, deltaTo mi g) ∧ okCand mi g ∧
      ∀ i0 d0, best = some (i0, d0) → deltaTo mi g < d0) := by
  unfold considerGroup
  split
  next h1 =>
    left
    refine ⟨rfl, Or.inl ?_⟩
    intro hc
    rw [hc.1] at h1
    cases h1
  next h1 =>
    have h1' : alreadyHasResolution mi g = false := by simpa using h1
    split
    next h2 => rw [him] at h2; cases h2
    next =>
      split
      next h4 =>
        have hok : okCand mi g := ⟨h1', h4⟩
        split
        next =>
          right
          exact ⟨rfl, hok, by intro i0 d0 hb; cases hb⟩
        next i0 bd =>
          split
          next h5 =>
            right
            refine ⟨rfl, hok, ?_⟩
            intro i1 d1 hb
            obtain ⟨h6, h7⟩ : i0 = i1 ∧ bd = d1 := by simpa using hb
            omega
          next h5 =>
            left
            refine ⟨rfl, Or.inr ⟨i0, bd, rfl, by omega⟩⟩
      next h4 =>
        left
        refine ⟨rfl, Or.inl ?_⟩
        intro hc
        exact h4 hc.2

theorem considerGroup_cases_image (mi : MediaInfo) (idx : Nat) (g : List MediaInfo)
    (best : Option (Nat × Nat)) (him : mi.is_image = true) :
    (∃ p, best = some p ∧ considerGroup mi idx g best = some p) ∨
    (best = none ∧ considerGroup mi idx g best = none ∧ ¬ imgCand mi g) ∨
    (best = none ∧ considerGroup mi idx g best = some (idx, 0) ∧ imgCand mi g) := by
  cases best with
  | some p =>
    left
    refine ⟨p, rfl, ?_⟩
    by_cases h1 : alreadyHasResolution mi g
    · simp [considerGroup, h1]
    · simp [considerGroup, h1, him]
  | none =>
    by_cases h1 : alreadyHasResolution mi g
    · right; left
      refine ⟨rfl, by simp [considerGroup, h1], ?_⟩
      intro hc
      rw [hc.1] at h1
      cases h1
    · by_cases h2 : (g.any fun other => decide (other.resolution = mi.resolution)) = true
      · right; right
        refine ⟨rfl, ?_, by simpa using h1, h2⟩
        simp [considerGroup, h1, him, h2]
      · right; left
        refine ⟨rfl, ?_, ?_⟩
        · simp [considerGroup, h1, him, h2]
        · intro hc
          exact h2 hc.2

/- ### Full specification of the candidate scan for Audio and Video -/

theorem findBest_go_spec (mi : MediaInfo) (him : mi.is_image = false)
    (rest : List (List MediaInfo)) :
    ∀ (idx : Nat) (best : Option (Nat × Nat)),
      (∀ i0 d0, best = some (i0, d0) → d0 ≤ maxDelta) →
      ((findBest mi idx rest best = none →
          best = none ∧ ∀ k g, rest.get? k = some g → ¬ okCand mi g) ∧
       (∀ j e, findBest mi idx rest best = some (j, e) →
          e ≤ maxDelta ∧
          ((best = some (j, e) ∧
              ∀ k g, rest.get? k = some g → okCand mi g → e ≤ deltaTo mi g) ∨
           (idx ≤ j ∧ (∃ g, rest.get? (j - idx) = some g ∧ okCand mi g ∧ e = deltaTo mi g) ∧
              (∀ i0 d0, best = some (i0, d0) → e < d0) ∧
              (∀ k g, rest.get? k = some g → okCand mi g →
                 e ≤ deltaTo mi g ∧ (idx + k < j → e < deltaTo mi g)))))) := by
  induction rest with
  | nil =>
    intro idx best hacc
    constructor
    · intro h
      refine ⟨h, ?_⟩
      intro k g hk
      simp at hk
    · intro j e h
      have he : e ≤ maxDelta := hacc j e h
      refine ⟨he, Or.inl ⟨h, ?_⟩⟩
      intro k g hk
      simp at hk
  | cons g rest ih =>
    intro idx best hacc
    have hstep : findBest mi idx (g :: rest) best =
        findBest mi (idx + 1) rest (considerGroup mi idx g best) := rfl
    rcases considerGroup_cases_nonimage mi idx g best him with
      ⟨hceq, hreason⟩ | ⟨hceq, hok, hstrictnew⟩
    · -- the accumulator passes this group unchanged
      have hacc' : ∀ i0 d0, considerGroup mi idx g best = some (i0, d0) → d0 ≤ maxDelta := by
        rw [hceq]; exact hacc
      have IH := ih (idx + 1) (considerGroup mi idx g best) hacc'
      constructor
      · intro hnone
        rw [hstep] at hnone
        obtain ⟨hbn, hrest⟩ := IH.1 hnone
        rw [hceq] at hbn
        refine ⟨hbn, ?_⟩
        intro k g0 hk
        cases k with
        | zero =>
          simp only [List.get?_cons_zero, Option.some.injEq] at hk
          subst hk
          rcases hreason with h | ⟨i0, d0, hb, _⟩
          · exact h
          · rw [hbn] at hb; simp at hb
        | succ k => exact hrest k g0 (by simpa using hk)
      · intro j e hsome
        rw [hstep] at hsome
        obtain ⟨he, hbr⟩ := IH.2 j e hsome
        refine ⟨he, ?_⟩
        rcases hbr with ⟨hbe, hall⟩ | ⟨hj1, ⟨g', hg', hok', hedelta⟩, hstrictacc, hall⟩
        · rw [hceq] at hbe
          left
          refine ⟨hbe, ?_⟩
          intro k g0 hk hok0
          cases k with
          | zero =>
            simp only [List.get?_cons_zero, Option.some.injEq] at hk
            subst hk
            rcases hreason with h | ⟨i0, d0, hb, hd0⟩
            · exact absurd hok0 h
            · rw [hbe] at hb
              obtain ⟨h6, h7⟩ : j = i0 ∧ e = d0 := by simpa using hb
              omega
          | succ k => exact hall k g0 (by simpa using hk) hok0
        · right
          refine ⟨by omega, ?_, ?_, ?_⟩
          · refine ⟨g', ?_, hok', hedelta⟩
            have hsh : j - idx = (j - (idx + 1)) + 1 := by omega
            rw [hsh]; simpa using hg'
          · intro i0 d0 hb
            exact hstrictacc i0 d0 (by rw [hceq]; exact hb)
          · intro k g0 hk hok0
            cases k with
            | zero =>
              simp only [List.get?_cons_zero, Option.some.injEq] at hk
              subst hk
              rcases hreason with h | ⟨i0, d0, hb, hd0⟩
              · exact absurd hok0 h
              · have hlt : e < d0 := hstrictacc i0 d0 (by rw [hceq]; exact hb)
                exact ⟨by omega, fun _ => by omega⟩
            | succ k =>
              have h8 := hall k g0 (by simpa using hk) hok0
              exact ⟨h8.1, fun hlt => h8.2 (by omega)⟩
    · -- this group becomes the new best candidate
      have hacc' : ∀ i0 d0, considerGroup mi idx g best = some (i0, d0) → d0 ≤ maxDelta := by
        rw [hceq]
        intro i0 d0 hb
        obtain ⟨h6, h7⟩ : idx = i0 ∧ deltaTo mi g = d0 := by simpa using hb
        rw [← h7]
        exact hok.2
      have IH := ih (idx + 1) (considerGroup mi idx g best) hacc'
      constructor
      · intro hnone
        rw [hstep] at hnone
        obtain ⟨hbn, _⟩ := IH.1 hnone
        rw [hceq] at hbn
        simp at hbn
      · intro j e hsome
        rw [hstep] at hsome
        obtain ⟨he, hbr⟩ := IH.2 j e hsome
        refine ⟨he, ?_⟩
        rcases hbr with ⟨hbe, hall⟩ | ⟨hj1, ⟨g', hg', hok', hedelta⟩, hstrictacc, hall⟩
        · -- the new candidate survived the remaining scan
          rw [hceq] at hbe
          obtain ⟨h6, h7⟩ : idx = j ∧ deltaTo mi g = e := by simpa using hbe
          right
          refine ⟨by omega, ?_, ?_, ?_⟩
          · refine ⟨g, ?_, hok, by omega⟩
            have hsh : j - idx = 0 := by omega
            rw [hsh]; simp
          · intro i0 d0 hb
            have := hstrictnew i0 d0 hb
            omega
          · intro k g0 hk hok0
            cases k with
            | zero =>
              simp only [List.get?_cons_zero, Option.some.injEq] at hk
              subst hk
              exact ⟨by omega, fun hcon => absurd hcon (by omega)⟩
            | succ k =>
              have h8 := hall k g0 (by simpa using hk) hok0
              exact ⟨h8, fun hcon => absurd hcon (by omega)⟩
        · -- a later group beat the new candidate
          have hstr : e < deltaTo mi g := hstrictacc idx (deltaTo mi g) (by rw [hceq])
          right
          refine ⟨by omega, ?_, ?_, ?_⟩
          · refine ⟨g', ?_, hok', hedelta⟩
            have hsh : j - idx = (j - (idx + 1)) + 1 := by omega
            rw [hsh]; simpa using hg'
          · intro i0 d0 hb
            have := hstrictnew i0 d0 hb
            omega
          · intro k g0 hk hok0
            cases k with
            | zero =>
              simp only [List.get?_cons_zero, Option.some.injEq] at hk
              subst hk
              exact ⟨by omega, fun _ => by omega⟩
            | succ k =>
              have h8 := hall k g0 (by simpa using hk) hok0
              exact ⟨h8.1, fun hlt => h8.2 (by omega)⟩

theorem bestMatch_none_iff (mi : MediaInfo) (him : mi.is_image = false)
    (gs : List (List MediaInfo)) :
    bestMatch gs mi = none ↔ ∀ k g, gs.get? k = some g → ¬ okCand mi g := by
  constructor
  · intro h
    exact ((findBest_go_spec mi him gs 0 none (by simp)).1 h).2
  · intro hall
    cases h : bestMatch gs mi with
    | none => rfl
    | some p =>
      obtain ⟨j, e⟩ := p
      have hspec := (findBest_go_spec mi him gs 0 none (by simp)).2 j e h
      rcases hspec.2 with ⟨hbe, _⟩ | ⟨_, ⟨g, hg, hok, _⟩, _, _⟩
      · simp at hbe
      · exact absurd hok (hall _ _ (by simpa using hg))

theorem bestMatch_some_char (mi : MediaInfo) (him : mi.is_image = false)
    (gs : List (List MediaInfo)) (j e : Nat) (h : bestMatch gs mi = some (j, e)) :
    ∃ g, gs.get? j = some g ∧ okCand mi g ∧ e = deltaTo mi g ∧
      ∀ k g', gs.get? k = some g' → okCand mi g' →
        e ≤ deltaTo mi g' ∧ (k < j → e < deltaTo mi g') := by
  have hspec := (findBest_go_spec mi him gs 0 none (by simp)).2 j e h
  rcases hspec.2 with ⟨hbe, _⟩ | ⟨_, ⟨g, hg, hok, he⟩, _, hall⟩
  · simp at hbe
  · refine ⟨g, by simpa using hg, hok, he, ?_⟩
    intro k g' hk hok'
    have h8 := hall k g' hk hok'
    exact ⟨h8.1, fun hkj => h8.2 (by omega)⟩

/- ### Full specification of the candidate scan for Image -/

theorem findBest_img_go (mi : MediaInfo) (him : mi.is_image = true)
    (rest : List (List MediaInfo)) :
    ∀ (idx : Nat) (best : Option (Nat × Nat)),
      ((∀ p, best = some p → findBest mi idx rest best = some p) ∧
       (best = none →
         (findBest mi idx rest best = none ∧
            ∀ k g, rest.get? k = some g → ¬ imgCand mi g) ∨
         (∃ j g, findBest mi idx rest best = some (j, 0) ∧ idx ≤ j ∧
            rest.get? (j - idx) = some g ∧ imgCand mi g ∧
            ∀ k g', rest.get? k = some g' → imgCand mi g' → j ≤ idx + k))) := by
  induction rest with
  | nil =>
    intro idx best
    constructor
    · intro p hp; exact hp
    · intro hb
      left
      refine ⟨hb, ?_⟩
      intro k g hk
      simp at hk
  | cons g rest ih =>
    intro idx best
    have hstep : findBest mi idx (g :: rest) best =
        findBest mi (idx + 1) rest (considerGroup mi idx g best) := rfl
    rcases considerGroup_cases_image mi idx g best him with
      ⟨p, hbp, hceq⟩ | ⟨hbn, hceq, hnc⟩ | ⟨hbn, hceq, hc⟩
    · constructor
      · intro p' hp'
        rw [hstep]
        rw [hbp] at hp'
        have hpp : p = p' := by simpa using hp'
        subst hpp
        rw [hceq]
        exact (ih (idx + 1) (some p)).1 p rfl
      · intro hb
        rw [hbp] at hb; simp at hb
    · constructor
      · intro p hp; rw [hbn] at hp; simp at hp
      · intro _
        have IH := (ih (idx + 1) (considerGroup mi idx g best)).2 (by rw [hceq])
        rcases IH with ⟨hres, hrest⟩ | ⟨j, g', hres, hj1, hg', hc', hall⟩
        · left
          refine ⟨by rw [hstep]; exact hres, ?_⟩
          intro k g0 hk
          cases k with
          | zero =>
            simp only [List.get?_cons_zero, Option.some.injEq] at hk
            subst hk
            exact hnc
          | succ k => exact hrest k g0 (by simpa using hk)
        · right
          refine ⟨j, g', by rw [hstep]; exact hres, by omega, ?_, hc', ?_⟩
          · have hsh : j - idx = (j - (idx + 1)) + 1 := by omega
            rw [hsh]; simpa using hg'
          · intro k g0 hk hc0
            cases k with
            | zero =>
              simp only [List.get?_cons_zero, Option.some.injEq] at hk
              subst hk
              exact absurd hc0 hnc
            | succ k =>
              have := hall k g0 (by simpa using hk) hc0
              omega
    · constructor
      · intro p hp; rw [hbn] at hp; simp at hp
      · intro _
        right
        refine ⟨idx, g, ?_, Nat.le_refl idx, ?_, hc, ?_⟩
        · rw [hstep, hceq]
          exact (ih (idx + 1) (some (idx, 0))).1 _ rfl
        · have hsh : idx - idx = 0 := by omega
          rw [hsh]; simp
        · intro k g0 hk hc0
          omega

theorem bestMatch_image_some (mi : MediaInfo) (him : mi.is_image = true)
    (gs : List (List MediaInfo)) (j e : Nat) (h : bestMatch gs mi = some (j, e)) :
    e = 0 ∧ ∃ g, gs.get? j = some g ∧ imgCand mi g ∧
      ∀ k g', gs.get? k = some g' → imgCand mi g' → j ≤ k := by
  have hspec := (findBest_img_go mi him gs 0 none).2 rfl
  rcases hspec with ⟨hres, _⟩ | ⟨j', g, hres, _, hg, hc, hall⟩
  · rw [bestMatch] at h; rw [hres] at h; cases h
  · rw [bestMatch] at h; rw [hres] at h
    obtain ⟨hj, hd⟩ : j' = j ∧ (0 : Nat) = e := by
      have h2 := h; simp only [Option.some.injEq, Prod.mk.injEq] at h2; exact h2
    subst hj
    refine ⟨hd.symm, g, by simpa using hg, hc, ?_⟩
    intro k g' hk hc'
    have := hall k g' hk hc'
    omega

theorem bestMatch_image_none_iff (mi : MediaInfo) (him : mi.is_image = true)
    (gs : List (List MediaInfo)) :
    bestMatch gs mi = none ↔ ∀ k g, gs.get? k = some g → ¬ imgCand mi g := by
  constructor
  · intro h
    rcases (findBest_img_go mi him gs 0 none).2 rfl with ⟨_, hrest⟩ | ⟨j, g, hres, _, _, _, _⟩
    · exact hrest
    · rw [bestMatch] at h; rw [hres] at h; cases h
  · intro hall
    rcases (findBest_img_go mi him gs 0 none).2 rfl with ⟨hres, _⟩ | ⟨j, g, _, _, hg, hc, _⟩
    · exact hres
    · exact absurd hc (hall _ _ (by simpa using hg))

/- ### The eligibility predicate, by media kind -/

theorem alreadyHasResolution_audio (mi : MediaInfo) (g : List MediaInfo)
    (hm : mi.media = MediaType.Audio) :
    alreadyHasResolution mi g = (g.any fun o => o.is_audio) := by
  unfold alreadyHasResolution
  rw [hm]

theorem alreadyHasResolution_image (mi : MediaInfo) (g : List MediaInfo)
    (hm : mi.media = MediaType.Image) :
    alreadyHasResolution mi g = (g.any fun o => o.is_image) := by
  unfold alreadyHasResolution
  rw [hm]

theorem alreadyHasResolution_video (mi : MediaInfo) (g : List MediaInfo)
    (hm : mi.media = MediaType.Video) :
    alreadyHasResolution mi g = (g.any fun o => decide (o.resolution = mi.resolution)) := by
  unfold alreadyHasResolution
  rw [hm]

/- ### The compatibility invariant is preserved by every insertion -/

theorem groupOk_singleton (mi : MediaInfo) : groupOkB [mi] = true := by
  cases h1 : mi.is_audio <;> cases h2 : mi.is_image <;> cases h3 : mi.is_video <;>
    simp [groupOkB, List.filter_cons, h1, h2, h3]

theorem groupOk_push (g : List MediaInfo) (mi : MediaInfo)
    (hok : groupOkB g = true) (helig : alreadyHasResolution mi g = false) :
    groupOkB (g ++ [mi]) = true := by
  simp only [groupOkB, Bool.and_eq_true, decide_eq_true_eq] at hok ⊢
  obtain ⟨⟨ha, hi⟩, hv⟩ := hok
  cases hm : mi.media with
  | Audio =>
    rw [alreadyHasResolution_audio mi g hm] at helig
    have hnone : ∀ o ∈ g, o.is_audio = false := by
      intro o ho
      by_contra hcon
      have hany : (g.any fun o => o.is_audio) = true :=
        List.any_eq_true.mpr ⟨o, ho, by simpa using hcon⟩
      rw [helig] at hany; cases hany
    have hfa : g.filter (fun m => m.is_audio) = [] :=
      List.filter_eq_nil_iff.mpr (by intro a ha'; simp [hnone a ha'])
    have hmia : mi.is_audio = true := by simp [MediaInfo.is_audio, hm]
    have hmii : mi.is_image = false := by simp [MediaInfo.is_image, hm]
    have hmiv : mi.is_video = false := by simp [MediaInfo.is_video, hm]
    refine ⟨⟨?_, ?_⟩, ?_⟩
    · rw [List.filter_append, hfa]
      simp [List.filter_cons, hmia]
    · rw [List.filter_append]
      simpa [List.filter_cons, hmii] using hi
    · rw [List.filter_append]
      simpa [List.filter_cons, hmiv] using hv
  | Image =>
    rw [alreadyHasResolution_image mi g hm] at helig
    have hnone : ∀ o ∈ g, o.is_image = false := by
      intro o ho
      by_contra hcon
      have hany : (g.any fun o => o.is_image) = true :=
        List.any_eq_true.mpr ⟨o, ho, by simpa using hcon⟩
      rw [helig] at hany; cases hany
    have hfi : g.filter (fun m => m.is_image) = [] :=
      List.filter_eq_nil_iff.mpr (by intro a ha'; simp [hnone a ha'])
    have hmia : mi.is_audio = false := by simp [MediaInfo.is_audio, hm]
    have hmii : mi.is_image = true := by simp [MediaInfo.is_image, hm]
    have hmiv : mi.is_video = false := by simp [MediaInfo.is_video, hm]
    refine ⟨⟨?_, ?_⟩, ?_⟩
    · rw [List.filter_append]
      simpa [List.filter_cons, hmia] using ha
    · rw [List.filter_append, hfi]
      simp [List.filter_cons, hmii]
    · rw [List.filter_append]
      simpa [List.filter_cons, hmiv] using hv
  | Video =>
    rw [alreadyHasResolution_video mi g hm] at helig
    have hnone : ∀ o ∈ g, o.resolution ≠ mi.resolution := by
      intro o ho hcon
      have hany : (g.any fun o => decide (o.resolution = mi.resolution)) = true :=
        List.any_eq_true.mpr ⟨o, ho, by simpa using hcon⟩
      rw [helig] at hany; cases hany
    have hmia : mi.is_audio = false := by simp [MediaInfo.is_audio, hm]
    have hmii : mi.is_image = false := by simp [MediaInfo.is_image, hm]
    have hmiv : mi.is_video = true := by simp [MediaInfo.is_video, hm]
    refine ⟨⟨?_, ?_⟩, ?_⟩
    · rw [List.filter_append]
      simpa [List.filter_cons, hmia] using ha
    · rw [List.filter_append]
      simpa [List.filter_cons, hmii] using hi
    · rw [List.filter_append]
      simp only [List.filter_cons, hmiv, if_true, List.filter_nil, List.map_append]
      rw [List.nodup_append]
      refine ⟨hv, ?_, ?_⟩
      · simp
      · intro x hx hx2
        have hx2' : x = mi.resolution := by simpa using hx2
        obtain ⟨o, ho, rfl⟩ := List.mem_map.mp hx
        exact hnone o (List.mem_filter.mp ho).1 (by rw [hx2'])

theorem placeOne_groupOk (gs : List (List MediaInfo)) (mi : MediaInfo)
    (h : ∀ g ∈ gs, groupOkB g = true) :
    ∀ g ∈ placeOne gs mi, groupOkB g = true := by
  intro x hx
  unfold placeOne at hx
  cases hbm : bestMatch gs mi with
  | none =>
    rw [hbm] at hx
    rcases List.mem_append.mp hx with h1 | h1
    · exact h x h1
    · simp at h1; subst h1; exact groupOk_singleton mi
  | some p =>
    obtain ⟨j, d⟩ := p
    rw [hbm] at hx
    rcases pushAt_mem gs j mi x hx with h1 | ⟨g, hget, rfl⟩
    · exact h x h1
    · obtain ⟨_, g', hget', helig⟩ := bestMatch_elig gs mi j d hbm
      rw [hget] at hget'
      have hgg : g = g' := by simpa using hget'
      subst hgg
      exact groupOk_push g mi (h g (List.get?_mem hget)) helig

theorem foldl_placeOne_groupOk :
    ∀ (l : List MediaInfo) (gs : List (List MediaInfo)),
      (∀ g ∈ gs, groupOkB g = true) → ∀ g ∈ List.foldl placeOne gs l, groupOkB g = true := by
  intro l
  induction l with
  | nil => intro gs h; exact h
  | cons mi l ih =>
    intro gs h
    exact ih (placeOne gs mi) (placeOne_groupOk gs mi h)

/- ### The threshold invariant is preserved by every insertion -/

theorem placeOne_thresh (gs : List (List MediaInfo)) (mi : MediaInfo)
    (h : ∀ g ∈ gs, threshOk g) : ∀ g ∈ placeOne gs mi, threshOk g := by
  intro x hx
  unfold placeOne at hx
  cases hbm : bestMatch gs mi with
  | none =>
    rw [hbm] at hx
    rcases List.mem_append.mp hx with h1 | h1
    · exact h x h1
    · simp at h1; subst h1
      exact ⟨mi, [], rfl, by intro m hm; simp at hm⟩
  | some p =>
    obtain ⟨j, e⟩ := p
    rw [hbm] at hx
    rcases pushAt_mem gs j mi x hx with h1 | ⟨g, hget, rfl⟩
    · exact h x h1
    · obtain ⟨a, t, rfl, hall⟩ := h g (List.get?_mem hget)
      refine ⟨a, t ++ [mi], by simp, ?_⟩
      intro m hm hmimg
      rcases List.mem_append.mp hm with h2 | h2
      · exact hall m h2 hmimg
      · simp at h2; subst h2
        obtain ⟨g', hget', hok', _, _⟩ := bestMatch_some_char m hmimg gs j e hbm
        rw [hget] at hget'
        have hgg : (a :: t) = g' := by simpa using hget'
        have hd : deltaTo m (a :: t) ≤ maxDelta := by rw [hgg]; exact hok'.2
        simpa [deltaTo] using hd

theorem foldl_placeOne_thresh :
    ∀ (l : List MediaInfo) (gs : List (List MediaInfo)),
      (∀ g ∈ gs, threshOk g) → ∀ g ∈ List.foldl placeOne gs l, threshOk g := by
  intro l
  induction l with
  | nil => intro gs h; exact h
  | cons mi l ih =>
    intro gs h
    exact ih (placeOne gs mi) (placeOne_thresh gs mi h)

/- ### The merge decision -/

theorem mergeAudio_isSome_iff (g : List MediaInfo) :
    (mergeAudio g).isSome = true ↔ (g.any fun m => m.is_audio) = true := by
  unfold mergeAudio
  simp [List.find?_isSome, List.any_eq_true]

theorem foldl_maxByResStep_ne_none : ∀ (ys : List MediaInfo) (a : MediaInfo),
    List.foldl maxByResStep (some a) ys ≠ none := by
  intro ys
  induction ys with
  | nil => intro a h; cases h
  | cons y ys ih =>
    intro a
    rw [List.foldl_cons]
    have hstep : maxByResStep (some a) y =
        if cmpOptRes y.resolution a.resolution = Ordering.lt then some a else some y := rfl
    rw [hstep]
    by_cases hc : cmpOptRes y.resolution a.resolution = Ordering.lt
    · rw [if_pos hc]; exact ih a
    · rw [if_neg hc]; exact ih y

theorem maxByResolution_ne_none (x : MediaInfo) (xs : List MediaInfo) :
    maxByResolution (x :: xs) ≠ none := by
  intro h
  apply foldl_maxByResStep_ne_none xs x
  simpa [maxByResolution, maxByResStep] using h

theorem mergeVideo_isSome_iff (g : List MediaInfo) :
    (mergeVideo g).isSome = true ↔ (g.any fun m => m.is_video) = true := by
  unfold mergeVideo
  constructor
  · intro h
    by_contra hany
    have hnil : g.filter (fun m => m.is_video) = [] := by
      apply List.filter_eq_nil_iff.mpr
      intro a ha hcon
      exact hany (List.any_eq_true.mpr ⟨a, ha, hcon⟩)
    rw [hnil] at h
    simp [maxByResolution] at h
  · intro h
    obtain ⟨a, ha, hva⟩ := List.any_eq_true.mp h
    cases hfil : g.filter (fun m => m.is_video) with
    | nil => exact absurd hva (List.filter_eq_nil_iff.mp hfil a ha)
    | cons x xs =>
      cases hmm : maxByResolution (x :: xs) with
      | none => exact absurd hmm (maxByResolution_ne_none x xs)
      | some v => simp [hfil, hmm]

theorem mergeResult_both (g : List MediaInfo) (a v : MediaInfo)
    (ha : mergeAudio g = some a) (hv : mergeVideo g = some v) :
    mergeResult g = (MergeAction.mux a.path v.path, "audio+video") := by
  unfold mergeResult
  rw [ha, hv]

theorem mergeResult_noAudio (g : List MediaInfo) (ha : mergeAudio g = none) :
    mergeResult g =
      (MergeAction.copyFirst ((g.headD default).path), "video") := by
  unfold mergeResult
  rw [ha]
  cases hv : mergeVideo g <;> simp

theorem mergeResult_noVideo (g : List MediaInfo) (hv : mergeVideo g = none) :
    mergeResult g = (MergeAction.copyFirst ((g.headD default).path),
      if (mergeAudio g).isSome then "audio" else "video") := by
  unfold mergeResult
  rw [hv]
  cases ha : mergeAudio g <;> simp

/- ### The chunked assembly equals the sequential assembly -/

theorem mapWithIndexFrom_shift {α β : Type} (f : Nat → α → β) (n : Nat) :
    ∀ (l : List α) (m : Nat),
      mapWithIndexFrom (fun i g => f (n + i) g) m l = mapWithIndexFrom f (n + m) l := by
  intro l
  induction l with
  | nil => intro m; rfl
  | cons x xs ih =>
    intro m
    simp only [mapWithIndexFrom]
    rw [ih (m + 1), Nat.add_succ]

theorem mapWithIndexFrom_take_drop {α β : Type} (f : Nat → α → β) :
    ∀ (l : List α) (n k : Nat),
      mapWithIndexFrom f n l =
        mapWithIndexFrom f n (l.take k) ++
          mapWithIndexFrom f (n + (l.take k).length) (l.drop k) := by
  intro l
  induction l with
  | nil => intro n k; simp [mapWithIndexFrom]
  | cons x xs ih =>
    intro n k
    cases k with
    | zero => simp [mapWithIndexFrom]
    | succ k =>
      rw [List.take_succ_cons, List.drop_succ_cons]
      simp only [mapWithIndexFrom, List.length_cons, List.cons_append]
      rw [ih (n + 1) k]
      have harith : n + 1 + (xs.take k).length = n + ((xs.take k).length + 1) := by omega
      rw [harith]

theorem mapWithIndexFrom_get? {α β : Type} (f : Nat → α → β) :
    ∀ (l : List α) (i n : Nat),
      (mapWithIndexFrom f i l).get? n = (l.get? n).map (f (i + n)) := by
  intro l
  induction l with
  | nil => intro i n; simp [mapWithIndexFrom]
  | cons x xs ih =>
    intro i n
    cases n with
    | zero => simp [mapWithIndexFrom]
    | succ n =>
      simp only [mapWithIndexFrom, List.get?_cons_succ]
      have harith : i + 1 + n = i + (n + 1) := by omega
      rw [ih (i + 1) n, harith]

theorem chunkedGo_chunksOfAux {β : Type} (f : Nat → List MediaInfo → β)
    (k : Nat) (hk : 0 < k) :
    ∀ (fuel : Nat) (l : List (List MediaInfo)) (ci : Nat), l.length ≤ fuel →
      chunkedGo f k ci (chunksOfAux fuel k l) = mapWithIndexFrom f (ci * k) l := by
  intro fuel
  induction fuel with
  | zero =>
    intro l ci hl
    have hnil : l = [] := by
      cases l with
      | nil => rfl
      | cons x xs => simp at hl
    subst hnil
    rfl
  | succ fuel ih =>
    intro l ci hl
    cases l with
    | nil => rfl
    | cons x xs =>
      have hstep : chunksOfAux (fuel + 1) k (x :: xs) =
          (x :: xs).take k :: chunksOfAux fuel k ((x :: xs).drop k) := rfl
      rw [hstep]
      have hgo : chunkedGo f k ci
            ((x :: xs).take k :: chunksOfAux fuel k ((x :: xs).drop k)) =
          mapWithIndexFrom (fun ii g => f (ci * k + ii) g) 0 ((x :: xs).take k) ++
            chunkedGo f k (ci + 1) (chunksOfAux fuel k ((x :: xs).drop k)) := rfl
      rw [hgo]
      have hlen : ((x :: xs).drop k).length ≤ fuel := by
        rw [List.length_drop]
        simp only [List.length_cons] at hl ⊢
        omega
      rw [ih ((x :: xs).drop k) (ci + 1) hlen]
      rw [mapWithIndexFrom_shift f (ci * k) ((x :: xs).take k) 0]
      rw [mapWithIndexFrom_take_drop f (x :: xs) (ci * k) k]
      by_cases hcase : k ≤ (x :: xs).length
      · have hlen2 : ((x :: xs).take k).length = k := by
          rw [List.length_take]
          simp only [List.length_cons] at hcase ⊢
          omega
        rw [hlen2]
        have harith : (ci + 1) * k = ci * k + k := by ring
        rw [harith, Nat.add_zero]
      · have hdrop : (x :: xs).drop k = [] := by
          apply List.drop_eq_nil_of_le
          omega
        rw [hdrop]
        simp [mapWithIndexFrom]

theorem chunkedMap_eq_assembleSeq {β : Type} (f : Nat → List MediaInfo → β)
    (k : Nat) (hk : 0 < k) (gs : List (List MediaInfo)) :
    chunkedMap f k gs = assembleSeq f gs := by
  unfold chunkedMap chunksOf assembleSeq
  have h := chunkedGo_chunksOfAux f k hk gs.length gs 0 (Nat.le_refl _)
  simpa using h

theorem divCeil_pos (n k : Nat) (hn : 0 < n) (hk : 0 < k) : 0 < divCeil n k := by
  unfold divCeil
  exact Nat.div_pos (by omega) hk

/- ### Output naming -/

theorem matchIndicesUnderscore_get? :
    ∀ (cs : List Char) (base j i : Nat),
      (matchIndicesUnderscore cs base).get? j = some i →
      base ≤ i ∧ cs.get? (i - base) = some '_' ∧ countU (cs.take (i - base)) = j := by
  intro cs
  induction cs with
  | nil => intro base j i h; simp [matchIndicesUnderscore] at h
  | cons c rest ih =>
    intro base j i h
    have hmi : matchIndicesUnderscore (c :: rest) base =
        (if c = '_' then base :: matchIndicesUnderscore rest (base + 1)
         else matchIndicesUnderscore rest (base + 1)) := rfl
    have hcu : ∀ t, countU (c :: t) = (if c = '_' then 1 else 0) + countU t :=
      fun t => rfl
    by_cases hc : c = '_'
    · rw [hmi, if_pos hc] at h
      cases j with
      | zero =>
        have hi : base = i := by simpa using h
        subst hi
        refine ⟨Nat.le_refl _, ?_, ?_⟩
        · simp [hc]
        · simp [countU]
      | succ j =>
        have h' : (matchIndicesUnderscore rest (base + 1)).get? j = some i := by
          simpa using h
        obtain ⟨hle, hget, hcnt⟩ := ih (base + 1) j i h'
        have hsh : i - base = (i - (base + 1)) + 1 := by omega
        refine ⟨by omega, ?_, ?_⟩
        · rw [hsh]; simpa using hget
        · rw [hsh, List.take_succ_cons, hcu, if_pos hc]
          omega
    · rw [hmi, if_neg hc] at h
      obtain ⟨hle, hget, hcnt⟩ := ih (base + 1) j i h
      have hsh : i - base = (i - (base + 1)) + 1 := by omega
      refine ⟨by omega, ?_, ?_⟩
      · rw [hsh]; simpa using hget
      · rw [hsh, List.take_succ_cons, hcu, if_neg hc]
        omega

theorem matchIndicesUnderscore_of_get :
    ∀ (cs : List Char) (base p j : Nat),
      cs.get? p = some '_' → countU (cs.take p) = j →
      (matchIndicesUnderscore cs base).get? j = some (base + p) := by
  intro cs
  induction cs with
  | nil => intro base p j h1 h2; simp at h1
  | cons c rest ih =>
    intro base p j h1 h2
    have hmi : matchIndicesUnderscore (c :: rest) base =
        (if c = '_' then base :: matchIndicesUnderscore rest (base + 1)
         else matchIndicesUnderscore rest (base + 1)) := rfl
    have hcu : ∀ t, countU (c :: t) = (if c = '_' then 1 else 0) + countU t :=
      fun t => rfl
    cases p with
    | zero =>
      have hc : c = '_' := by simpa using h1
      have hj : j = 0 := by
        rw [List.take_zero] at h2
        simpa [countU] using h2.symm
      subst hj
      rw [hmi, if_pos hc]
      simp
    | succ p =>
      have h1' : rest.get? p = some '_' := by simpa using h1
      rw [List.take_succ_cons, hcu] at h2
      by_cases hc : c = '_'
      · rw [if_pos hc] at h2
        obtain ⟨j', rfl⟩ : ∃ j', j = j' + 1 := ⟨countU (rest.take p), by omega⟩
        have hrec := ih (base + 1) p j' h1' (by omega)
        rw [hmi, if_pos hc, List.get?_cons_succ, hrec]
        have harith : base + 1 + p = base + (p + 1) := by omega
        rw [harith]
      · rw [if_neg hc] at h2
        have hrec := ih (base + 1) p j h1' (by omega)
        rw [hmi, if_neg hc, hrec]
        have harith : base + 1 + p = base + (p + 1) := by omega
        rw [harith]

theorem stubOf_some_iff (cs : List Char) (s : List Char) :
    stubOf cs = some s ↔ ∃ r, cs = s ++ '_' :: r ∧ countU s = 1 := by
  constructor
  · intro h
    unfold stubOf at h
    cases hidx : (matchIndicesUnderscore cs 0).get? 1 with
    | none => rw [hidx] at h; cases h
    | some i =>
      rw [hidx] at h
      have hs : s = cs.take i := by simpa using h.symm
      obtain ⟨_, hget, hcnt⟩ := matchIndicesUnderscore_get? cs 0 1 i hidx
      rw [Nat.sub_zero] at hget hcnt
      have hlen : i < cs.length := (List.get?_eq_some.mp hget).1
      refine ⟨cs.drop (i + 1), ?_, by rw [hs]; exact hcnt⟩
      rw [hs]
      have hdrop : cs.drop i = '_' :: cs.drop (i + 1) := by
        rw [List.drop_eq_get_cons hlen]
        obtain ⟨hw, hgeteq⟩ := List.get?_eq_some.mp hget
        rw [hgeteq]
      conv_lhs => rw [← List.take_append_drop i cs]
      rw [hdrop]
  · rintro ⟨r, rfl, hcnt⟩
    have hget : (s ++ '_' :: r).get? s.length = some '_' := by
      rw [List.get?_append_right (Nat.le_refl _)]
      simp
    have htake : (s ++ '_' :: r).take s.length = s := List.take_left s ('_' :: r)
    have hidx := matchIndicesUnderscore_of_get (s ++ '_' :: r) 0 s.length 1 hget
      (by rw [htake]; exact hcnt)
    unfold stubOf
    rw [hidx]
    simp [htake]

/- ### Decimal index rendering is injective -/

theorem digitChar_toNat (d : Nat) (h : d < 10) : (digitChar d).toNat = 48 + d := by
  interval_cases d <;> decide

theorem digitChar_ne_underscore (d : Nat) (h : d < 10) : digitChar d ≠ '_' := by
  interval_cases d <;> decide

theorem natDigits_no_underscore (n : Nat) : ∀ c ∈ natDigits n, c ≠ '_' := by
  induction n using Nat.strong_induction_on with
  | _ n ih =>
    intro c hc
    rw [natDigits] at hc
    split at hc
    next h =>
      simp at hc; subst hc; exact digitChar_ne_underscore n h
    next h =>
      rcases List.mem_append.mp hc with h1 | h1
      · exact ih (n / 10) (Nat.div_lt_self (by omega) (by omega)) c h1
      · simp at h1; subst h1
        exact digitChar_ne_underscore (n % 10) (Nat.mod_lt _ (by omega))

theorem parseDec_append_digit (xs : List Char) (c : Char) :
    parseDec (xs ++ [c]) = parseDec xs * 10 + (c.toNat - 48) := by
  unfold parseDec
  rw [List.foldl_append]
  rfl

theorem parseDec_natDigits (n : Nat) : parseDec (natDigits n) = n := by
  induction n using Nat.strong_induction_on with
  | _ n ih =>
    rw [natDigits]
    split
    next h =>
      have h0 : parseDec [digitChar n] = 0 * 10 + ((digitChar n).toNat - 48) := rfl
      rw [h0, digitChar_toNat n h]
      omega
    next h =>
      rw [parseDec_append_digit]
      rw [ih (n / 10) (Nat.div_lt_self (by omega) (by omega))]
      rw [digitChar_toNat (n % 10) (Nat.mod_lt _ (by omega))]
      omega

theorem parseDec_replicate_zero (k : Nat) (xs : List Char) :
    parseDec (List.replicate k '0' ++ xs) = parseDec xs := by
  induction k with
  | zero => simp
  | succ k ih =>
    have hstep : List.replicate (k + 1) '0' ++ xs = '0' :: (List.replicate k '0' ++ xs) := by
      simp [List.replicate_succ]
    rw [hstep]
    have h0 : parseDec ('0' :: (List.replicate k '0' ++ xs)) =
        List.foldl (fun acc c => acc * 10 + (c.toNat - 48)) ((0 : Nat) * 10 + ('0'.toNat - 48))
          (List.replicate k '0' ++ xs) := rfl
    rw [h0]
    have hz : (0 : Nat) * 10 + ('0'.toNat - 48) = 0 := by decide
    rw [hz]
    exact ih

theorem parseDec_padIndex (n : Nat) : parseDec (padIndex n) = n := by
  unfold padIndex
  rw [parseDec_replicate_zero]
  exact parseDec_natDigits n

theorem padIndex_no_underscore (n : Nat) : ∀ c ∈ padIndex n, c ≠ '_' := by
  intro c hc
  unfold padIndex at hc
  rcases List.mem_append.mp hc with h1 | h1
  · have h2 := (List.mem_replicate.mp h1).2
    subst h2; decide
  · exact natDigits_no_underscore n c h1

theorem takeWhile_ne_underscore (xs ys : List Char) (h : ∀ c ∈ xs, c ≠ '_') :
    List.takeWhile (fun c => c != '_') (xs ++ '_' :: ys) = xs := by
  induction xs with
  | nil => simp
  | cons c rest ih =>
    have hc : c ≠ '_' := h c (List.mem_cons_self c rest)
    have hbc : (c != '_') = true := by simpa using hc
    simp only [List.cons_append, List.takeWhile_cons, hbc, if_true]
    rw [ih (fun c' hc' => h c' (List.mem_cons_of_mem c hc'))]

theorem outName_inj (s1 s2 : List Char) (n m : Nat) (ext : List Char)
    (hext : ∀ c ∈ ext, c ≠ '_')
    (h : outName s1 n ext = outName s2 m ext) : n = m ∧ s1 = s2 := by
  have key : ∀ (s : List Char) (k : Nat),
      List.takeWhile (fun c => c != '_') (outName s k ext).reverse =
        (padIndex k ++ ext).reverse := by
    intro s k
    unfold outName
    rw [List.reverse_append, List.reverse_cons, List.append_assoc]
    apply takeWhile_ne_underscore
    intro c hcm
    rw [List.mem_reverse] at hcm
    rcases List.mem_append.mp hcm with h1 | h1
    · exact padIndex_no_underscore k c h1
    · exact hext c h1
  have h1 := key s1 n
  rw [h] at h1
  rw [key s2 m] at h1
  have h3 : padIndex m ++ ext = padIndex n ++ ext := List.reverse_injective h1
  have h4 : padIndex m = padIndex n := List.append_cancel_right h3
  have hnm : n = m := by
    have h5 := congrArg parseDec h4
    rw [parseDec_padIndex, parseDec_padIndex] at h5
    omega
  refine ⟨hnm, ?_⟩
  subst hnm
  unfold outName at h
  exact List.append_cancel_right h

/- ### The CLI argument loop -/

theorem parseArgs_nil (ex : String → Bool) (paths : List String) (d : String) :
    parseArgs ex [] paths d =
      if paths.isEmpty then CliOutcome.noInputs else CliOutcome.ok paths d := rfl

theorem parseArgs_positional (ex : String → Bool) (a : String)
    (rest paths : List String) (d : String)
    (h1 : a ≠ "-o") (h2 : a ≠ "--outdir") (h3 : a ≠ "--out-dir")
    (h4 : a ≠ "-h") (h5 : a ≠ "--help") (h6 : startsWithDash a = false) :
    parseArgs ex (a :: rest) paths d =
      if 4 ≤ a.utf8ByteSize then
        if ex a then parseArgs ex rest (paths ++ [a]) d
        else CliOutcome.pathNotFound a
      else parseArgs ex rest paths d := by
  have hstep : parseArgs ex (a :: rest) paths d =
      (if a = "-o" ∨ a = "--outdir" ∨ a = "--out-dir" then
        (match rest with
         | [] => CliOutcome.missingOutDirValue
         | v :: rest2 =>
           if ex v then parseArgs ex rest2 paths v else CliOutcome.outDirNotFound)
      else if a = "-h" ∨ a = "--help" then CliOutcome.helpExit
      else if startsWithDash a then CliOutcome.badFlag a
      else if 4 ≤ a.utf8ByteSize then
        if ex a then parseArgs ex rest (paths ++ [a]) d
        else CliOutcome.pathNotFound a
      else parseArgs ex rest paths d) := by
    rw [parseArgs.eq_def]
  rw [hstep, if_neg (by simp [h1, h2, h3]), if_neg (by simp [h4, h5])]
  simp [h6]

/- ### The claims -/

/-- C1: the ordering the program's merge actually uses to pick the video
track for muxing is the derived lexicographic Ord on Resolution (width
first, then height), which contradicts the hand-written area-based
PartialOrd on the same type and hence the claim: in the reachable group
[audio 10.1s, video 720x400/10s, video 1200x90/10s], merge muxes the
1200x90 video although 720x400 has the larger pixel area (288000 versus
108000), while the PartialOrd ranks 720x400 above 1200x90. -/
theorem c1_merge_video_selection_bug :
    Resolution.cmpArea { width := 720, height := 400 } { width := 1200, height := 90 } =
        Ordering.gt ∧
    Resolution.cmpDerived { width := 720, height := 400 } { width := 1200, height := 90 } =
        Ordering.lt ∧
    group [v720x400, v1200x90, aud101] = [[aud101, v720x400, v1200x90]] ∧
    mergeVideo [aud101, v720x400, v1200x90] = some v1200x90 ∧
    mergeResult [aud101, v720x400, v1200x90] =
      (MergeAction.mux "a_track_1.mp4" "v_banner.mp4", "audio+video") ∧
    Resolution.area { width := 1200, height := 90 } <
      Resolution.area { width := 720, height := 400 } := by
  decide

/-- C2: group returns a partition of its input: the concatenation of the
output groups is a permutation of the input list (every descriptor appears
in exactly one output group, none dropped, none duplicated), and every
returned group is non-empty. -/
theorem c2_partition (l : List MediaInfo) :
    List.Perm (group l).flatten l ∧ ((group l).all fun g => !g.isEmpty) = true := by
  constructor
  · have h1 := foldl_placeOne_flatten_perm (sortDesc l) []
    have h2 : (group l).flatten = (List.foldl placeOne [] (sortDesc l)).flatten := rfl
    rw [h2]
    refine List.Perm.trans h1 ?_
    simpa using sortDesc_perm l
  · rw [List.all_eq_true]
    intro g hg
    have hne := foldl_placeOne_nonempty (sortDesc l) []
      (by intro g0 h0; simp at h0) g hg
    cases g with
    | nil => exact absurd rfl hne
    | cons a t => rfl

/-- C3: after every insertion the algorithm performs (foldl placeOne over
any processed prefix — and in particular in the final output of group),
every group contains at most one Audio member, at most one Image member,
and no two Video members with the same resolution. -/
theorem c3_compat_invariant (l : List MediaInfo) :
    ((List.foldl placeOne [] l).all groupOkB) = true ∧
    ((group l).all groupOkB) = true := by
  constructor
  · rw [List.all_eq_true]
    intro g hg
    exact foldl_placeOne_groupOk l [] (by intro g0 h0; simp at h0) g hg
  · rw [List.all_eq_true]
    intro g hg
    exact foldl_placeOne_groupOk (sortDesc l) [] (by intro g0 h0; simp at h0) g hg

/-- C4: descriptors are processed in non-increasing duration order; a
non-image descriptor is appended to the eligible group of smallest
delta = |duration − anchor duration| within the 0.7 s (maxDelta) threshold,
with the earliest-created group chosen on ties, and starts a new singleton
group when no candidate survives; pushing appends at the end of the chosen
group and leaves every other position (in particular the anchor at the
head) unchanged; consequently in the final grouping every non-image member
after a group's anchor is within 0.7 s of the anchor's duration. -/
theorem c4_threshold_placement :
    (∀ l : List MediaInfo,
        (sortDesc l).Pairwise (fun a b => b.duration ≤ a.duration)) ∧
    (∀ (gs : List (List MediaInfo)) (mi : MediaInfo), mi.is_image = false →
        bestMatch gs mi = none →
        placeOne gs mi = gs ++ [[mi]] ∧ ∀ k g, gs.get? k = some g → ¬ okCand mi g) ∧
    (∀ (gs : List (List MediaInfo)) (mi : MediaInfo) (j e : Nat), mi.is_image = false →
        bestMatch gs mi = some (j, e) →
        placeOne gs mi = pushAt gs j mi ∧
        ∃ g, gs.get? j = some g ∧ okCand mi g ∧ e = deltaTo mi g ∧
          ∀ k g', gs.get? k = some g' → okCand mi g' →
            e ≤ deltaTo mi g' ∧ (k < j → e < deltaTo mi g')) ∧
    (∀ (gs : List (List MediaInfo)) (j : Nat) (mi : MediaInfo), j < gs.length → ∀ k,
        (pushAt gs j mi).get? k =
          if k = j then (gs.get? k).map (fun g => g ++ [mi]) else gs.get? k) ∧
    (∀ l : List MediaInfo, ∀ g ∈ group l, ∃ a t, g = a :: t ∧
        ∀ m ∈ t, m.is_image = false → absDiff m.duration a.duration ≤ maxDelta) := by
  refine ⟨sortDesc_sorted, ?_, ?_, ?_, ?_⟩
  · intro gs mi him hbm
    exact ⟨by simp [placeOne, hbm], (bestMatch_none_iff mi him gs).mp hbm⟩
  · intro gs mi j e him hbm
    exact ⟨by simp [placeOne, hbm], bestMatch_some_char mi him gs j e hbm⟩
  · intro gs j mi hj k
    exact pushAt_get? gs j mi k hj
  · intro l g hg
    exact foldl_placeOne_thresh (sortDesc l) [] (by intro g0 h0; simp at h0) g hg

/-- Witness for C4: an audio descriptor scanned against no existing groups
starts a new singleton group. -/
theorem c4_threshold_placement_witness :
    placeOne [] aud101 = [] ++ [[aud101]] :=
  (c4_threshold_placement.2.1 [] aud101 (by decide) (by decide)).1

/-- C5 counterexample: with equal durations the Image descriptor sorts
before the Video descriptor of the same resolution; the engine then rejects
the image's group for the video purely because of the Image member's
resolution, although the group contains no Video member and the duration
delta is 0, so "rejected exactly when it contains a Video member of equal
resolution" is false on the code. -/
theorem c5_counterexample :
    group [img640s10, vid640s10] = [[img640s10], [vid640s10]] ∧
    alreadyHasResolution vid640s10 [img640s10] = true ∧
    ([img640s10].any fun m => m.is_video) = false ∧
    absDiff vid640s10.duration img640s10.duration ≤ maxDelta := by
  decide

/-- C5 amended: a group is rejected for a Video descriptor exactly when it
already contains any member (Video or Image) whose resolution equals the
descriptor's; an Audio member, whose resolution is none, can never be that
member for a Video descriptor that carries a resolution. -/
theorem c5_amended (mi : MediaInfo) (g : List MediaInfo)
    (hm : mi.media = MediaType.Video) :
    (alreadyHasResolution mi g = true ↔ ∃ o ∈ g, o.resolution = mi.resolution) ∧
    (mi.resolution.isSome = true →
      ∀ o ∈ g, o.resolution = none → o.resolution ≠ mi.resolution) := by
  constructor
  · rw [alreadyHasResolution_video mi g hm, List.any_eq_true]
    constructor
    · rintro ⟨o, ho, hdec⟩
      exact ⟨o, ho, by simpa using hdec⟩
    · rintro ⟨o, ho, heq⟩
      exact ⟨o, ho, by simpa using heq⟩
  · intro hsome o ho hnone hcon
    rw [hnone] at hcon
    rw [← hcon] at hsome
    simp at hsome

/-- Witness for C5 amended: the image's group is indeed rejected for the
equal-resolution video. -/
theorem c5_amended_witness :
    alreadyHasResolution vid640s10 [img640s10] = true :=
  (c5_amended vid640s10 [img640s10] rfl).1.mpr ⟨img640s10, by decide, by decide⟩

/-- C6: an Image descriptor is assigned, with delta 0 and no duration
comparison, to the first (earliest-created) group that has no Image member
yet (exactly the image eligibility test) and contains some member of equal
resolution, and starts a new singleton group when no such group exists;
Scenario D: [video 640x480/3.0s, image 640x480] yields one group holding
both descriptors. -/
theorem c6_image_placement :
    (∀ (mi : MediaInfo) (g : List MediaInfo), mi.is_image = true →
        alreadyHasResolution mi g = (g.any fun o => o.is_image)) ∧
    (∀ (gs : List (List MediaInfo)) (mi : MediaInfo) (j e : Nat), mi.is_image = true →
        bestMatch gs mi = some (j, e) →
        e = 0 ∧ placeOne gs mi = pushAt gs j mi ∧
        ∃ g, gs.get? j = some g ∧ imgCand mi g ∧
          ∀ k g', gs.get? k = some g' → imgCand mi g' → j ≤ k) ∧
    (∀ (gs : List (List MediaInfo)) (mi : MediaInfo), mi.is_image = true →
        bestMatch gs mi = none →
        placeOne gs mi = gs ++ [[mi]] ∧ ∀ k g, gs.get? k = some g → ¬ imgCand mi g) ∧
    group [vid640s3, img640s0] = [[vid640s3, img640s0]] := by
  refine ⟨?_, ?_, ?_, by decide⟩
  · intro mi g him
    have hm : mi.media = MediaType.Image := by
      simpa [MediaInfo.is_image] using him
    exact alreadyHasResolution_image mi g hm
  · intro gs mi j e him hbm
    obtain ⟨he, g, hg, hc, hall⟩ := bestMatch_image_some mi him gs j e hbm
    exact ⟨he, by simp [placeOne, hbm], g, hg, hc, hall⟩
  · intro gs mi him hbm
    exact ⟨by simp [placeOne, hbm], (bestMatch_image_none_iff mi him gs).mp hbm⟩

/-- Witness for C6: the image joins the existing same-resolution group at
index 0. -/
theorem c6_image_placement_witness :
    placeOne [[vid640s3]] img640s0 = pushAt [[vid640s3]] 0 img640s0 :=
  ((c6_image_placement.2.1 [[vid640s3]] img640s0 0 0 (by decide) (by decide)).2).1

/-- C7: the chunked parallel assembly refines the sequential one: with a
positive worker count and chunk size ceil(len/workers), concatenating the
per-chunk result lists (each chunk processed in order, each group given the
global index chunk_idx * chunk_size + in_chunk_idx) equals assembling the
groups sequentially in their original order, and record n always comes
from group n. -/
theorem c7_chunked_refinement {β : Type} (f : Nat → List MediaInfo → β)
    (gs : List (List MediaInfo)) (w : Nat) (hw : 0 < w) (hne : gs ≠ []) :
    chunkedMap f (divCeil gs.length w) gs = assembleSeq f gs ∧
    0 < divCeil gs.length w ∧
    ∀ n, (assembleSeq f gs).get? n = (gs.get? n).map (f n) := by
  have hlen : 0 < gs.length := by
    cases gs with
    | nil => exact absurd rfl hne
    | cons a b => simp
  have hk : 0 < divCeil gs.length w := divCeil_pos gs.length w hlen hw
  refine ⟨chunkedMap_eq_assembleSeq f _ hk gs, hk, ?_⟩
  intro n
  unfold assembleSeq
  have h := mapWithIndexFrom_get? f gs 0 n
  simpa using h

/-- Witness for C7 with three groups and two workers (chunk size 2). -/
theorem c7_chunked_refinement_witness :
    chunkedMap tagIdx (divCeil (List.length [[vid640s3], [img640s10], [aud101]]) 2)
        [[vid640s3], [img640s10], [aud101]] =
      assembleSeq tagIdx [[vid640s3], [img640s10], [aud101]] :=
  (c7_chunked_refinement tagIdx [[vid640s3], [img640s10], [aud101]] 2
    (by decide) (by decide)).1

/-- C8 counterexample: a group consisting of a single Image descriptor
produces an Attachment Record of kind "image", which is none of "audio",
"video", "audio+video", so the claim as stated over every assembled group
fails. -/
theorem c8_counterexample :
    attachmentKind [img640s10] = "image" ∧
    attachmentKind [img640s10] ≠ "audio" ∧
    attachmentKind [img640s10] ≠ "video" ∧
    attachmentKind [img640s10] ≠ "audio+video" := by
  decide

/-- C8 amended: for every non-empty group other than a single-Image group
(which short-circuits with kind "image" and no merge), the record's kind is
merge's kind, which is one of "audio", "video", "audio+video": it is
"audio+video" exactly when the group has both an Audio and a Video member
(they are then muxed); otherwise merge copies the first member's source
file verbatim and the kind is "audio" when an Audio member is present and
"video" otherwise. -/
theorem c8_amended (g : List MediaInfo) (hne : g ≠ [])
    (hni : ¬(g.length = 1 ∧ (g.headD default).is_image = true)) :
    attachmentKind g = mergeKind g ∧
    (mergeKind g = "audio+video" ↔
      (g.any fun m => m.is_audio) = true ∧ (g.any fun m => m.is_video) = true) ∧
    (¬((g.any fun m => m.is_audio) = true ∧ (g.any fun m => m.is_video) = true) →
      (mergeResult g).1 = MergeAction.copyFirst ((g.headD default).path) ∧
      mergeKind g = if (g.any fun m => m.is_audio) then "audio" else "video") ∧
    (mergeKind g = "audio" ∨ mergeKind g = "video" ∨ mergeKind g = "audio+video") := by
  have hkind : attachmentKind g = mergeKind g := by
    unfold attachmentKind
    rw [if_neg (by simpa using hni)]
  refine ⟨hkind, ?_⟩
  cases ha : mergeAudio g with
  | some a =>
    cases hv : mergeVideo g with
    | some v =>
      have hres := mergeResult_both g a v ha hv
      have hany : (g.any fun m => m.is_audio) = true := by
        rw [← mergeAudio_isSome_iff]; simp [ha]
      have hanyv : (g.any fun m => m.is_video) = true := by
        rw [← mergeVideo_isSome_iff]; simp [hv]
      refine ⟨?_, ?_, ?_⟩
      · constructor
        · intro _; exact ⟨hany, hanyv⟩
        · intro _; simp [mergeKind, hres]
      · intro hcon; exact absurd ⟨hany, hanyv⟩ hcon
      · right; right; simp [mergeKind, hres]
    | none =>
      have hres := mergeResult_noVideo g hv
      have hnv : ¬((g.any fun m => m.is_video) = true) := by
        rw [← mergeVideo_isSome_iff]; simp [hv]
      have hany : (g.any fun m => m.is_audio) = true := by
        rw [← mergeAudio_isSome_iff]; simp [ha]
      refine ⟨?_, ?_, ?_⟩
      · constructor
        · intro hk
          simp only [mergeKind, hres, ha] at hk
          simp at hk
        · intro hc; exact absurd hc.2 hnv
      · intro _
        refine ⟨by simp [hres], ?_⟩
        simp only [mergeKind, hres, ha]
        simp [hany]
      · left
        simp only [mergeKind, hres, ha]
        simp
  | none =>
    have hres := mergeResult_noAudio g ha
    have hna : ¬((g.any fun m => m.is_audio) = true) := by
      rw [← mergeAudio_isSome_iff]; simp [ha]
    refine ⟨?_, ?_, ?_⟩
    · constructor
      · intro hk
        simp only [mergeKind, hres] at hk
        simp at hk
      · intro hc; exact absurd hc.1 hna
    · intro _
      refine ⟨by simp [hres], ?_⟩
      simp only [mergeKind, hres]
      simp [hna]
    · right; left
      simp only [mergeKind, hres]

/-- Witness for C8 amended: an audio+video group goes through merge. -/
theorem c8_amended_witness :
    attachmentKind [aud101, vid640s10] = mergeKind [aud101, vid640s10] :=
  (c8_amended [aud101, vid640s10] (by decide) (by decide)).1

/-- C9: the stub is the prefix of the first member's file name up to, not
including, the second underscore exactly when such a decomposition exists
(at least two underscores), and absent otherwise (a fresh identifier is
then generated); Scenario E holds for IMG_20240101_001.mp4 and clip.mp4;
the output names stub, underscore, index zero-padded to width 3, extension,
with an underscore-free extension, are injective in the index and the stub,
so index-qualified filenames are unique across groups; and the chunked
assembly assigns each group exactly its position in the overall ordering as
that index. -/
theorem c9_naming :
    (∀ cs s : List Char, stubOf cs = some s ↔
        ∃ r, cs = s ++ '_' :: r ∧ countU s = 1) ∧
    (∀ cs : List Char, stubOf cs = none ↔
        ¬ ∃ s r, cs = s ++ '_' :: r ∧ countU s = 1) ∧
    stubOf ("IMG_20240101_001.mp4".toList) = some ("IMG_20240101".toList) ∧
    stubOf ("clip.mp4".toList) = none ∧
    (∀ (s1 s2 : List Char) (n m : Nat) (ext : List Char), (∀ c ∈ ext, c ≠ '_') →
        outName s1 n ext = outName s2 m ext → n = m ∧ s1 = s2) ∧
    (∀ (β : Type) (f : Nat → List MediaInfo → β) (gs : List (List MediaInfo)) (w : Nat),
        0 < w → gs ≠ [] →
        chunkedMap f (divCeil gs.length w) gs = assembleSeq f gs) := by
  refine ⟨stubOf_some_iff, ?_, by decide, by decide, outName_inj, ?_⟩
  · intro cs
    constructor
    · intro h hcon
      obtain ⟨s, r, hdec, hcnt⟩ := hcon
      have hsome := (stubOf_some_iff cs s).mpr ⟨r, hdec, hcnt⟩
      rw [h] at hsome; cases hsome
    · intro h
      cases hs : stubOf cs with
      | none => rfl
      | some s =>
        obtain ⟨r, hdec, hcnt⟩ := (stubOf_some_iff cs s).mp hs
        exact absurd ⟨s, r, hdec, hcnt⟩ h
  · intro β f gs w hw hne
    have hlen : 0 < gs.length := by
      cases gs with
      | nil => exact absurd rfl hne
      | cons a b => simp
    exact chunkedMap_eq_assembleSeq f _ (divCeil_pos gs.length w hlen hw) gs

/-- Witness for C9: the uniqueness statement applied at a concrete stub,
index and extension. -/
theorem c9_naming_witness : (2 : Nat) = 2 ∧ ("ab".toList) = ("ab".toList) :=
  c9_naming.2.2.2.2.1 ("ab".toList) ("ab".toList) 2 2 (".mp4".toList)
    (by decide) rfl

/-- C10 counterexample: the positional argument "abc" is only 3 bytes, so
last_chunk of 4 bytes fails and the loop silently skips it without any
existence test: with no path existing, parsing ["abc"] ends with no inputs
(usage and exit 1) instead of exiting with "abc: Path not found" as the
claim requires for every positional argument. -/
theorem c10_counterexample :
    parseArgs exNone ["abc"] [] "./" = CliOutcome.noInputs ∧
    CliOutcome.noInputs ≠ CliOutcome.pathNotFound "abc" ∧
    exNone "abc" = false := by
  decide

/-- C10 amended: a positional argument (not a flag, not consumed as a flag
value, not starting with a dash) of at least 4 bytes is treated as a
candidate input path — appended to the input list when it exists, exiting
with a path-not-found report otherwise — while a shorter positional
argument is silently ignored; and when the argument list is exhausted with
no collected paths the program prints usage and exits 1. -/
theorem c10_amended :
    (∀ (ex : String → Bool) (a : String) (rest paths : List String) (d : String),
        a ≠ "-o" → a ≠ "--outdir" → a ≠ "--out-dir" → a ≠ "-h" → a ≠ "--help" →
        startsWithDash a = false →
        parseArgs ex (a :: rest) paths d =
          if 4 ≤ a.utf8ByteSize then
            if ex a then parseArgs ex rest (paths ++ [a]) d
            else CliOutcome.pathNotFound a
          else parseArgs ex rest paths d) ∧
    (∀ (ex : String → Bool) (paths : List String) (d : String),
        parseArgs ex [] paths d =
          if paths.isEmpty then CliOutcome.noInputs else CliOutcome.ok paths d) :=
  ⟨fun ex a rest paths d h1 h2 h3 h4 h5 h6 =>
      parseArgs_positional ex a rest paths d h1 h2 h3 h4 h5 h6,
   fun ex paths d => parseArgs_nil ex paths d⟩

/-- Witness for C10 amended: a 8-byte positional argument follows the
candidate-path branch. -/
theorem c10_amended_witness :
    parseArgs exNone ["zzzz.mp4"] [] "./" =
      (if 4 ≤ ("zzzz.mp4" : String).utf8ByteSize then
        (if exNone "zzzz.mp4" then parseArgs exNone [] ([] ++ ["zzzz.mp4"]) "./"
         else CliOutcome.pathNotFound "zzzz.mp4")
      else parseArgs exNone [] [] "./") :=
  c10_amended.1 exNone "zzzz.mp4" [] [] "./" (by decide) (by decide) (by decide)
    (by decide) (by decide) (by decide)

end Instagrouper
